import Mathlib

/-!
Verification of the chunking, ingestion and retrieval core of the
PDF-to-Markdown RAG service (`src/app.py`), shallowly embedded in Lean.

Strings are modelled as `List Char`; Python slice indexing (with clamping
and negative indices), `str.rfind`, and `str.strip` are embedded
faithfully.  The chunker loop of `PDFToMarkdownRAG.chunk_text` is embedded
with explicit fuel, returning `none` when the fuel is exhausted before the
loop exits.  The ingestion and retrieval pipelines take the external
collaborators (embedding model, vector store) as function arguments
returning `Except`, mirroring Python exceptions.
-/

abbrev Str := List Char

/-- The ASCII whitespace characters stripped by Python's `str.strip()`. -/
def pyIsSpace (c : Char) : Bool :=
  c = ' ' || c = '\t' || c = '\n' || c = '\r' || c = '\x0b' || c = '\x0c'

/-- Normalise a Python slice bound for a string of length `n`:
negative indices count from the end, and both ends are clamped to `[0, n]`. -/
def pyIdx (n : Nat) (i : Int) : Nat :=
  min (if i < 0 then ((n : Int) + i).toNat else i.toNat) n

/-- Python's `t[i:j]` on a string of characters. -/
def pySlice (t : Str) (i j : Int) : Str :=
  (t.take (pyIdx t.length j)).drop (pyIdx t.length i)

/-- Python's `s.rfind(c)`: index of the last occurrence of `c` in `s`,
`-1` when absent. -/
def rfind : Str → Char → Int
  | [], _ => -1
  | a :: rest, c =>
    if rfind rest c ≥ 0 then rfind rest c + 1 else if a = c then 0 else -1

/-- Python's `s.strip()`: drop leading and trailing whitespace. -/
def pyStrip (l : Str) : Str :=
  ((l.dropWhile pyIsSpace).reverse.dropWhile pyIsSpace).reverse

/-- The end position chosen by one iteration of `chunk_text`'s loop
(`src/app.py:110-121`): the candidate end is `start + chunk_size`; when it
falls before the end of the text, the candidate window is searched for the
last `'.'` or `'\n'` (note: `rfind` yields a window-relative index, which
the source compares against the absolute midpoint `start + chunk_size // 2`
and uses directly as a slice bound into `text`). -/
def chunkEnd (text : Str) (chunk_size : Int) (start : Int) : Int :=
  let e0 := start + chunk_size
  if e0 < (text.length : Int) then
    let chunk := pySlice text start e0
    let last_period := rfind chunk '.'
    let last_newline := rfind chunk '\n'
    let break_point := max last_period last_newline
    if break_point > start + Int.fdiv chunk_size 2 then break_point + 1 else e0
  else e0

/-- The `while` loop of `chunk_text` (`src/app.py:109-127`), recording the
`(start, end)` window of each iteration.  In the source, the appended
`chunk` always equals `text[start:end]` for the iteration's final `end`
(both when the shrink branch fires and when it does not), so the emitted
chunks are recovered from the windows by slicing and stripping.  Runs on
explicit fuel; `none` means the fuel ran out before the loop exited. -/
def chunkWindowsLoop (text : Str) (chunk_size overlap : Int) :
    Nat → Int → List (Int × Int) → Option (List (Int × Int))
  | 0, _, _ => none
  | fuel + 1, start, acc =>
    if start < (text.length : Int) then
      let e := chunkEnd text chunk_size start
      let acc' := acc ++ [(start, e)]
      if e - overlap ≥ (text.length : Int) then some acc'
      else chunkWindowsLoop text chunk_size overlap fuel (e - overlap) acc'
    else some acc

/-- The iteration windows of `chunk_text`, starting from cursor `0`. -/
def chunkWindows (text : Str) (chunk_size overlap : Int) (fuel : Nat) :
    Option (List (Int × Int)) :=
  chunkWindowsLoop text chunk_size overlap fuel 0 []

/-- `PDFToMarkdownRAG.chunk_text` (`src/app.py:104-129`): slice each
iteration window out of `text`, strip it, and keep the non-empty results. -/
def chunk_text (text : Str) (chunk_size overlap : Int) (fuel : Nat) :
    Option (List Str) :=
  (chunkWindows text chunk_size overlap fuel).map fun ws =>
    (ws.map fun p => pyStrip (pySlice text p.1 p.2)).filter fun c => !c.isEmpty

/-- `chunk_text` with the fuel `length + 1`, which suffices whenever the
cursor advances by at least one position per iteration (in particular for
the default parameters `chunk_size = 1000`, `overlap = 200`). -/
def chunk_text_total (text : Str) (chunk_size overlap : Int) : List Str :=
  (chunk_text text chunk_size overlap (text.length + 1)).getD []

/-- The loop of `chunk_text` exits after finitely many iterations. -/
def chunkTerminates (text : Str) (chunk_size overlap : Int) : Prop :=
  ∃ fuel res, chunk_text text chunk_size overlap fuel = some res

/-- Reassemble a number from its decimal digits (most significant first). -/
def fromDigits (l : List Nat) : Nat :=
  l.foldl (fun a d => 10 * a + d) 0

/-- The decimal digits of `n`, most significant first (empty for `0`). -/
def decDigits (n : Nat) : List Nat :=
  if h : n = 0 then [] else decDigits (n / 10) ++ [n % 10]
decreasing_by exact Nat.div_lt_self (Nat.pos_of_ne_zero h) (by norm_num)

/-- Python's `str(i)` for a natural number: its decimal rendering. -/
def natStr (n : Nat) : Str :=
  if n = 0 then ['0'] else (decDigits n).map fun d => Char.ofNat (48 + d)

/-- The chunk identifier `f"{doc_id}_chunk_{i}"` (`src/app.py:146`). -/
def chunkId (doc_id : Str) (i : Nat) : Str :=
  doc_id ++ "_chunk_".toList ++ natStr i

/-- The metadata bundle stored with each chunk (`src/app.py:147-155`). -/
structure Metadata where
  document_id : Str
  filename : Str
  chunk_index : Nat
  chunk_text : Str
  deriving DecidableEq, Inhabited

/-- The preview text stored in the metadata:
`chunk[:200] + "..." if len(chunk) > 200 else chunk` (`src/app.py:152`). -/
def preview (chunk : Str) : Str :=
  if chunk.length > 200 then chunk.take 200 ++ "...".toList else chunk

/-- The metadata list built over `enumerate(chunks)` (`src/app.py:147-155`). -/
def mkMetadatas (doc_id filename : Str) (chunks : List Str) : List Metadata :=
  chunks.enum.map fun p => ⟨doc_id, filename, p.1, preview p.2⟩

/-- A `document_store` entry (`src/app.py:166-171`). -/
structure DocEntry where
  filename : Str
  markdown_content : Str
  chunk_count : Nat
  doc_id : Str
  deriving DecidableEq

/-- The in-memory document registry (`document_store`, `src/app.py:38`). -/
abbrev Registry := Str → Option DocEntry

/-- The argument bundle of `collection.add` (`src/app.py:158-163`). -/
structure AddArgs where
  embeddings : List (List ℚ)
  documents : List Str
  metadatas : List Metadata
  ids : List Str
  deriving DecidableEq

/-- An HTTP error response (`HTTPException(status_code=..., detail=...)`). -/
structure HTTPError where
  status_code : Nat
  detail : Str
  deriving DecidableEq

/-- `PDFToMarkdownRAG.add_document_to_store` (`src/app.py:131-177`).  The
embedding model's `encode` and the vector store's `collection.add` are
passed as functions that may fail; a raised exception is modelled by the
`Except.error` branch.  The result pairs the outcome with the registry
after the call: the registry entry is written only in the final step of
the `try` block, so on any failure the registry is returned unchanged. -/
def add_document_to_store
    (encode : List Str → Except Str (List (List ℚ)))
    (collectionAdd : AddArgs → Except Str Unit)
    (registry : Registry) (doc_id filename markdown_content : Str) :
    Except HTTPError Unit × Registry :=
  let chunks := chunk_text_total markdown_content 1000 200
  match encode chunks with
  | .error e =>
      (.error ⟨500, "Error adding document to store: ".toList ++ e⟩, registry)
  | .ok embeddings =>
    let chunk_ids := (List.range chunks.length).map fun i => chunkId doc_id i
    let metadatas := mkMetadatas doc_id filename chunks
    match collectionAdd ⟨embeddings, chunks, metadatas, chunk_ids⟩ with
    | .error e =>
        (.error ⟨500, "Error adding document to store: ".toList ++ e⟩, registry)
    | .ok _ =>
        (.ok (),
          fun k => if k = doc_id
            then some ⟨filename, markdown_content, chunks.length, doc_id⟩
            else registry k)

/-- The store's reply to `collection.query` for a single query embedding:
the inner lists `results['documents'][0]`, `results['metadatas'][0]`,
`results['distances'][0]` (`src/app.py:190-194`). -/
structure StoreReply where
  documents : List Str
  metadatas : List Metadata
  distances : List ℚ
  deriving DecidableEq

/-- One formatted query result (`src/app.py:199-203`). -/
structure QueryResult where
  content : Str
  metadata : Metadata
  similarity_score : ℚ
  deriving DecidableEq

/-- The response of `query_documents` (`src/app.py:205-209`). -/
structure QueryResponse where
  query : Str
  results : List QueryResult
  total_results : Nat
  deriving DecidableEq

/-- The result-formatting loop of `query_documents` (`src/app.py:197-203`):
`for i in range(len(results['documents'][0]))`, reading the `i`-th
document, metadata and distance, with `similarity_score = 1 - distance`. -/
def formatResults (r : StoreReply) : List QueryResult :=
  (List.range r.documents.length).map fun i =>
    ⟨r.documents.getD i [], r.metadatas.getD i default, 1 - r.distances.getD i 0⟩

/-- `PDFToMarkdownRAG.query_documents` (`src/app.py:179-213`).  `encode`
and `collection.query` are passed as fallible functions.  Indexing
`metadatas[0][i]` or `distances[0][i]` past the end raises `IndexError`
in the source, which the `except` turns into an HTTP 500; this is the
final `error` branch. -/
def query_documents
    (encode : List Str → Except Str (List (List ℚ)))
    (collectionQuery : List (List ℚ) → Nat → Except Str StoreReply)
    (query : Str) (n_results : Nat) :
    Except HTTPError QueryResponse :=
  match encode [query] with
  | .error e => .error ⟨500, "Error querying documents: ".toList ++ e⟩
  | .ok query_embedding =>
    match collectionQuery query_embedding n_results with
    | .error e => .error ⟨500, "Error querying documents: ".toList ++ e⟩
    | .ok r =>
      if r.documents.length ≤ r.metadatas.length ∧
          r.documents.length ≤ r.distances.length then
        let formatted_results := formatResults r
        .ok ⟨query, formatted_results, formatted_results.length⟩
      else
        .error ⟨500, "Error querying documents: list index out of range".toList⟩

/-! ### Helper lemmas about the string primitives -/

theorem dropWhile_decomp (p : Char → Bool) :
    ∀ l : Str, ∃ u, u ++ l.dropWhile p = l ∧ ∀ x ∈ u, p x = true := by
  intro l
  induction l with
  | nil => exact ⟨[], rfl, by simp⟩
  | cons a l ih =>
    by_cases hp : p a
    · obtain ⟨u, hu, hall⟩ := ih
      refine ⟨a :: u, ?_, ?_⟩
      · simp [List.dropWhile_cons, hp, hu]
      · intro x hx
        rcases List.mem_cons.mp hx with h | h
        · exact h ▸ hp
        · exact hall x h
    · refine ⟨[], ?_, by simp⟩
      simp [List.dropWhile_cons, hp]

theorem dropWhile_head_false (p : Char → Bool) :
    ∀ (l : Str) (a : Char) (m : Str), l.dropWhile p = a :: m → p a = false := by
  intro l
  induction l with
  | nil => intro a m h; simp [List.dropWhile] at h
  | cons b l ih =>
    intro a m h
    by_cases hp : p b
    · exact ih a m (by simpa [List.dropWhile_cons, hp] using h)
    · rw [List.dropWhile_cons, if_neg (by simp [hp])] at h
      cases h
      simpa using hp

theorem dropWhile_length_le (p : Char → Bool) (l : Str) :
    (l.dropWhile p).length ≤ l.length := by
  obtain ⟨u, hu, -⟩ := dropWhile_decomp p l
  calc (l.dropWhile p).length ≤ u.length + (l.dropWhile p).length := by omega
  _ = l.length := by rw [← List.length_append, hu]

theorem pyStrip_decomp (l : Str) :
    ∃ u v, u ++ pyStrip l ++ v = l := by
  obtain ⟨u, hu, -⟩ := dropWhile_decomp pyIsSpace l
  obtain ⟨w, hw, -⟩ := dropWhile_decomp pyIsSpace (l.dropWhile pyIsSpace).reverse
  refine ⟨u, w.reverse, ?_⟩
  have : pyStrip l ++ w.reverse = l.dropWhile pyIsSpace := by
    have := congrArg List.reverse hw
    simpa [pyStrip, List.reverse_append] using this
  rw [List.append_assoc, this, hu]

theorem pyStrip_head_not_space (l : Str) (a : Char) (m : Str)
    (h : pyStrip l = a :: m) : pyIsSpace a = false := by
  obtain ⟨w, hw, -⟩ := dropWhile_decomp pyIsSpace (l.dropWhile pyIsSpace).reverse
  have hps : pyStrip l ++ w.reverse = l.dropWhile pyIsSpace := by
    have h2 := congrArg List.reverse hw
    simpa [pyStrip, List.reverse_append] using h2
  have hr : l.dropWhile pyIsSpace = a :: (m ++ w.reverse) := by
    rw [← hps, h]; simp
  exact dropWhile_head_false pyIsSpace l a (m ++ w.reverse) hr

theorem pyStrip_last_not_space (l : Str) (a : Char)
    (h : (pyStrip l).getLast? = some a) : pyIsSpace a = false := by
  have h' : ((l.dropWhile pyIsSpace).reverse.dropWhile pyIsSpace).head? = some a := by
    rw [← List.getLast?_reverse]; exact h
  cases hd : (l.dropWhile pyIsSpace).reverse.dropWhile pyIsSpace with
  | nil => rw [hd] at h'; simp at h'
  | cons b m =>
    rw [hd] at h'; simp at h'
    exact h' ▸ dropWhile_head_false pyIsSpace (l.dropWhile pyIsSpace).reverse b m hd

theorem pyStrip_length_le (l : Str) : (pyStrip l).length ≤ l.length := by
  obtain ⟨u, v, h⟩ := pyStrip_decomp l
  have := congrArg List.length h
  simp [List.length_append] at this
  omega

theorem pyIdx_le (n : Nat) (i : Int) : pyIdx n i ≤ n :=
  Nat.min_le_right _ _

theorem pySlice_length (t : Str) (i j : Int) :
    (pySlice t i j).length = pyIdx t.length j - pyIdx t.length i := by
  simp [pySlice, List.length_drop, List.length_take,
    Nat.min_eq_left (pyIdx_le t.length j)]

theorem pySlice_decomp (t : Str) (i j : Int) :
    ∃ u v, u ++ pySlice t i j ++ v = t := by
  refine ⟨(t.take (pyIdx t.length j)).take (pyIdx t.length i),
    t.drop (pyIdx t.length j), ?_⟩
  rw [pySlice, List.take_append_drop, List.take_append_drop]

theorem pyIdx_sub_le (n : Nat) (i cs : Int) (hcs : 0 ≤ cs) :
    pyIdx n (i + cs) - pyIdx n i ≤ cs.toNat := by
  unfold pyIdx
  split <;> split <;> omega

theorem pyIdx_le_toNat (n : Nat) (e : Int) (he : 0 ≤ e) :
    pyIdx n e ≤ e.toNat := by
  unfold pyIdx
  split
  · omega
  · exact Nat.min_le_left _ _

theorem rfind_bounds (c : Char) : ∀ l : Str, -1 ≤ rfind l c ∧ rfind l c < (l.length : Int) := by
  intro l
  induction l with
  | nil => simp [rfind]
  | cons a m ih =>
    obtain ⟨ih1, ih2⟩ := ih
    rw [rfind]
    simp only [List.length_cons]
    split
    · constructor <;> push_cast <;> omega
    · split <;> constructor <;> push_cast <;> omega

/-! ### Helper lemmas about the chunker loop -/

theorem chunkEnd_cases (t : Str) (cs s : Int) :
    chunkEnd t cs s = s + cs ∨
    ∃ bp, bp = max (rfind (pySlice t s (s + cs)) '.')
        (rfind (pySlice t s (s + cs)) '\n') ∧
      bp > s + Int.fdiv cs 2 ∧ chunkEnd t cs s = bp + 1 := by
  simp only [chunkEnd]
  split
  · split
    · next hgt => exact Or.inr ⟨_, rfl, hgt, rfl⟩
    · exact Or.inl rfl
  · exact Or.inl rfl

theorem chunkEnd_advance (t : Str) (cs ov : Int) (h0 : 0 ≤ ov) (h1 : ov < cs)
    (h2 : ov ≤ Int.fdiv cs 2 + 1) (s : Int) :
    s + 1 ≤ chunkEnd t cs s - ov := by
  rcases chunkEnd_cases t cs s with h | ⟨bp, -, hgt, h⟩ <;> rw [h]
  · omega
  · generalize Int.fdiv cs 2 = m at h2 hgt
    omega

theorem chunkWindowsLoop_prefix (t : Str) (cs ov : Int) :
    ∀ (fuel : Nat) (s : Int) (acc ws : List (Int × Int)),
      chunkWindowsLoop t cs ov fuel s acc = some ws → ∃ tl, ws = acc ++ tl := by
  intro fuel
  induction fuel with
  | zero => intro s acc ws h; simp [chunkWindowsLoop] at h
  | succ n ih =>
    intro s acc ws h
    simp only [chunkWindowsLoop] at h
    split at h
    · split at h
      · exact ⟨[(s, chunkEnd t cs s)], by simpa using h.symm⟩
      · obtain ⟨tl, htl⟩ := ih _ _ _ h
        exact ⟨(s, chunkEnd t cs s) :: tl, by simpa using htl⟩
    · exact ⟨[], by simpa using h.symm⟩

theorem chunkWindowsLoop_mem (t : Str) (cs ov : Int) :
    ∀ (fuel : Nat) (s : Int) (acc ws : List (Int × Int)),
      chunkWindowsLoop t cs ov fuel s acc = some ws →
      ∀ p ∈ ws, p ∈ acc ∨ p.2 = chunkEnd t cs p.1 := by
  intro fuel
  induction fuel with
  | zero => intro s acc ws h; simp [chunkWindowsLoop] at h
  | succ n ih =>
    intro s acc ws h p hp
    simp only [chunkWindowsLoop] at h
    split at h
    · split at h
      · cases h
        rcases List.mem_append.mp hp with h' | h'
        · exact Or.inl h'
        · simp at h'
          cases h'
          exact Or.inr rfl
      · rcases ih _ _ _ h p hp with h' | h'
        · rcases List.mem_append.mp h' with h'' | h''
          · exact Or.inl h''
          · simp at h''
            cases h''
            exact Or.inr rfl
        · exact Or.inr h'
    · cases h
      exact Or.inl hp

theorem chunkWindowsLoop_chain (t : Str) (cs ov : Int) :
    ∀ (fuel : Nat) (s : Int) (acc ws : List (Int × Int)),
      chunkWindowsLoop t cs ov fuel s acc = some ws →
      List.Chain' (fun p q : Int × Int => q.1 = p.2 - ov) acc →
      (∀ q ∈ acc.getLast?, s = q.2 - ov) →
      List.Chain' (fun p q : Int × Int => q.1 = p.2 - ov) ws := by
  intro fuel
  induction fuel with
  | zero => intro s acc ws h; simp [chunkWindowsLoop] at h
  | succ n ih =>
    intro s acc ws h hacc hlast
    have hext : List.Chain' (fun p q : Int × Int => q.1 = p.2 - ov)
        (acc ++ [(s, chunkEnd t cs s)]) := by
      rw [List.chain'_append]
      refine ⟨hacc, List.chain'_singleton _, ?_⟩
      intro x hx y hy
      simp at hy
      subst hy
      exact hlast x hx
    simp only [chunkWindowsLoop] at h
    split at h
    · split at h
      · cases h; exact hext
      · refine ih _ _ _ h hext ?_
        intro q hq
        simp [List.getLast?_append] at hq
        subst hq
        rfl
    · cases h; exact hacc

theorem chunkWindowsLoop_cover (t : Str) (cs ov : Int) (hov : 0 ≤ ov) :
    ∀ (fuel : Nat) (s : Int) (acc ws : List (Int × Int)),
      chunkWindowsLoop t cs ov fuel s acc = some ws →
      ∀ j : Int, s ≤ j → j < (t.length : Int) → ∃ p ∈ ws, p.1 ≤ j ∧ j < p.2 := by
  intro fuel
  induction fuel with
  | zero => intro s acc ws h; simp [chunkWindowsLoop] at h
  | succ n ih =>
    intro s acc ws h j hsj hjlen
    simp only [chunkWindowsLoop] at h
    split at h
    · split at h
      · next hend =>
        cases h
        exact ⟨(s, chunkEnd t cs s), by simp, hsj, by omega⟩
      · by_cases hj : j < chunkEnd t cs s - ov
        · obtain ⟨tl, htl⟩ := chunkWindowsLoop_prefix t cs ov _ _ _ _ h
          refine ⟨(s, chunkEnd t cs s), ?_, hsj, by omega⟩
          rw [htl]
          simp
        · exact ih _ _ _ h j (by omega) hjlen
    · omega

theorem chunkWindowsLoop_term (t : Str) (cs ov : Int) (h0 : 0 ≤ ov) (h1 : ov < cs)
    (h2 : ov ≤ Int.fdiv cs 2 + 1) :
    ∀ (fuel : Nat) (s : Int) (acc : List (Int × Int)),
      (t.length : Int) ≤ s + fuel →
      ∃ ws, chunkWindowsLoop t cs ov (fuel + 1) s acc = some ws := by
  intro fuel
  induction fuel with
  | zero =>
    intro s acc hle
    refine ⟨acc, ?_⟩
    simp only [chunkWindowsLoop]
    rw [if_neg (by push_cast at hle; omega)]
  | succ n ih =>
    intro s acc hle
    by_cases hs : s < (t.length : Int)
    · by_cases hend : chunkEnd t cs s - ov ≥ (t.length : Int)
      · refine ⟨acc ++ [(s, chunkEnd t cs s)], ?_⟩
        simp only [chunkWindowsLoop]
        rw [if_pos hs, if_pos hend]
      · obtain ⟨ws, hws⟩ := ih (chunkEnd t cs s - ov) (acc ++ [(s, chunkEnd t cs s)])
          (by
            have hadv := chunkEnd_advance t cs ov h0 h1 h2 s
            push_cast at hle ⊢
            omega)
        refine ⟨ws, ?_⟩
        simp only [chunkWindowsLoop]
        rw [if_pos hs, if_neg hend]
        exact hws
    · refine ⟨acc, ?_⟩
      simp only [chunkWindowsLoop]
      rw [if_neg hs]

theorem chunk_window_length_le (t : Str) (cs s : Int) (hcs : 0 ≤ cs) :
    (pySlice t s (chunkEnd t cs s)).length ≤ cs.toNat := by
  rcases chunkEnd_cases t cs s with h | ⟨bp, hbp, hgt, h⟩ <;> rw [h]
  · rw [pySlice_length]
    exact pyIdx_sub_le _ _ _ hcs
  · subst hbp
    have hb1 := rfind_bounds '.' (pySlice t s (s + cs))
    have hb2 := rfind_bounds '\n' (pySlice t s (s + cs))
    have hlen : (pySlice t s (s + cs)).length ≤ cs.toNat := by
      rw [pySlice_length]
      exact pyIdx_sub_le _ _ _ hcs
    have h0bp : 0 ≤ max (rfind (pySlice t s (s + cs)) '.')
        (rfind (pySlice t s (s + cs)) '\n') + 1 := by omega
    have hidx := pyIdx_le_toNat t.length _ h0bp
    rw [pySlice_length]
    omega

theorem pyStrip_empty : pyStrip [] = [] := rfl

theorem pySlice_full (t : Str) (j : Int) (h : (t.length : Int) ≤ j) :
    pySlice t 0 j = t := by
  have h0 : pyIdx t.length 0 = 0 := by simp [pyIdx]
  have hj : pyIdx t.length j = t.length := by
    unfold pyIdx
    split
    · omega
    · omega
  rw [pySlice, h0, hj, List.take_length, List.drop_zero]

theorem chunkWindows_single (t : Str) (cs ov : Int) (fuel : Nat)
    (h0 : 0 ≤ ov) (h1 : (t.length : Int) ≤ cs - ov) (hpos : 0 < t.length) :
    chunkWindows t cs ov (fuel + 1) = some [(0, cs)] := by
  have hend : chunkEnd t cs 0 = cs := by
    simp only [chunkEnd]
    rw [if_neg (by omega)]
    omega
  unfold chunkWindows
  simp only [chunkWindowsLoop]
  rw [hend, if_pos (by omega), if_pos (by omega)]
  rfl

/-! ### Helper lemmas about decimal renderings and chunk identifiers -/

theorem fromDigits_append_singleton (l : List Nat) (d : Nat) :
    fromDigits (l ++ [d]) = 10 * fromDigits l + d := by
  simp [fromDigits, List.foldl_append]

theorem fromDigits_decDigits : ∀ n : Nat, fromDigits (decDigits n) = n := by
  intro n
  induction n using Nat.strong_induction_on with
  | _ n ih =>
    by_cases h : n = 0
    · subst h
      rw [decDigits]
      simp [fromDigits]
    · rw [decDigits, dif_neg h, fromDigits_append_singleton,
        ih (n / 10) (Nat.div_lt_self (Nat.pos_of_ne_zero h) (by norm_num))]
      omega

theorem decDigits_injective (a b : Nat) (h : decDigits a = decDigits b) : a = b := by
  have := fromDigits_decDigits a
  rw [h, fromDigits_decDigits] at this
  exact this.symm

theorem decDigits_lt_ten : ∀ n : Nat, ∀ d ∈ decDigits n, d < 10 := by
  intro n
  induction n using Nat.strong_induction_on with
  | _ n ih =>
    by_cases h : n = 0
    · subst h; rw [decDigits]; simp
    · rw [decDigits, dif_neg h]
      intro d hd
      rcases List.mem_append.mp hd with h' | h'
      · exact ih (n / 10) (Nat.div_lt_self (Nat.pos_of_ne_zero h) (by norm_num)) d h'
      · simp at h'
        omega

theorem digitChar_inj : ∀ d < 10, ∀ e < 10,
    Char.ofNat (48 + d) = Char.ofNat (48 + e) → d = e := by decide

theorem digitChar_ne_underscore : ∀ d < 10, Char.ofNat (48 + d) ≠ '_' := by decide

theorem natStr_injective (a b : Nat) (h : natStr a = natStr b) : a = b := by
  have mapinj : ∀ (l₁ l₂ : List Nat), (∀ d ∈ l₁, d < 10) → (∀ d ∈ l₂, d < 10) →
      l₁.map (fun d => Char.ofNat (48 + d)) = l₂.map (fun d => Char.ofNat (48 + d)) →
      l₁ = l₂ := by
    intro l₁
    induction l₁ with
    | nil => intro l₂ _ _ hm; cases l₂ <;> simp_all
    | cons d l ih =>
      intro l₂ hl₁ hl₂ hm
      cases l₂ with
      | nil => simp at hm
      | cons e l₂ =>
        simp only [List.map_cons, List.cons.injEq] at hm
        have hde : d = e :=
          digitChar_inj d (hl₁ d (by simp)) e (hl₂ e (by simp)) hm.1
        rw [hde, ih l₂ (fun x hx => hl₁ x (by simp [hx])) (fun x hx => hl₂ x (by simp [hx])) hm.2]
  unfold natStr at h
  by_cases ha : a = 0 <;> by_cases hb : b = 0
  · rw [ha, hb]
  · exfalso
    rw [if_pos ha, if_neg hb] at h
    have : decDigits b = [0] := by
      have := mapinj [0] (decDigits b) (by simp) (decDigits_lt_ten b) (by simpa using h)
      exact this.symm
    have hb0 := fromDigits_decDigits b
    rw [this] at hb0
    simp [fromDigits] at hb0
    exact hb hb0.symm
  · exfalso
    rw [if_neg ha, if_pos hb] at h
    have : decDigits a = [0] := by
      have := mapinj (decDigits a) [0] (decDigits_lt_ten a) (by simp) (by simpa using h)
      exact this
    have ha0 := fromDigits_decDigits a
    rw [this] at ha0
    simp [fromDigits] at ha0
    exact ha ha0.symm
  · rw [if_neg ha, if_neg hb] at h
    exact decDigits_injective a b
      (mapinj (decDigits a) (decDigits b) (decDigits_lt_ten a) (decDigits_lt_ten b) h)

theorem natStr_no_underscore (n : Nat) : ∀ c ∈ natStr n, c ≠ '_' := by
  unfold natStr
  split
  · simp
  · intro c hc
    obtain ⟨d, hd, hdc⟩ := List.mem_map.mp hc
    rw [← hdc]
    exact digitChar_ne_underscore d (decDigits_lt_ten n d hd)

theorem takeWhile_append_stop (p : Char → Bool) :
    ∀ (xs : Str) (a : Char) (u : Str), (∀ x ∈ xs, p x = true) → p a = false →
      List.takeWhile p (xs ++ a :: u) = xs := by
  intro xs
  induction xs with
  | nil =>
    intro a u _ ha
    simp [List.takeWhile_cons, ha]
  | cons x xs ih =>
    intro a u hall ha
    have hx : p x = true := hall x (by simp)
    simp only [List.cons_append, List.takeWhile_cons, hx, if_true]
    rw [ih a u (fun y hy => hall y (by simp [hy])) ha]

/-- Claim C5.  The map `(doc_id, index) ↦ doc_id ++ "_chunk_" ++ str(index)`
is injective for arbitrary document identifier strings: the decimal digits
after the final underscore determine the index, and the remaining prefix
determines the identifier.  Hence identifier sets of documents with
distinct identifiers are disjoint, and distinct indices within one
document yield distinct chunk identifiers. -/
theorem chunkId_injective (d₁ : Str) (i₁ : Nat) (d₂ : Str) (i₂ : Nat)
    (h : chunkId d₁ i₁ = chunkId d₂ i₂) : d₁ = d₂ ∧ i₁ = i₂ := by
  have hrev := congrArg List.reverse h
  have hsep : ("_chunk_".toList : Str).reverse = '_' :: "knuhc_".toList := by decide
  have hshape : ∀ (d : Str) (i : Nat),
      (chunkId d i).reverse =
        (natStr i).reverse ++ '_' :: ("knuhc_".toList ++ d.reverse) := by
    intro d i
    rw [chunkId, List.reverse_append, List.reverse_append, hsep]
    simp
  rw [hshape, hshape] at hrev
  have hno : ∀ (i : Nat), ∀ x ∈ (natStr i).reverse, (x != '_') = true := by
    intro i x hx
    have := natStr_no_underscore i x (List.mem_reverse.mp hx)
    simpa using this
  have htw := congrArg (List.takeWhile fun c => c != '_') hrev
  rw [takeWhile_append_stop _ _ _ _ (hno i₁) (by simp),
    takeWhile_append_stop _ _ _ _ (hno i₂) (by simp)] at htw
  have hi : i₁ = i₂ :=
    natStr_injective i₁ i₂ (by
      have := congrArg List.reverse htw
      simpa using this)
  refine ⟨?_, hi⟩
  rw [hi] at h
  have happ : d₁ ++ ("_chunk_".toList ++ natStr i₂) = d₂ ++ ("_chunk_".toList ++ natStr i₂) := by
    simpa [chunkId, List.append_assoc] using h
  exact List.append_cancel_right happ

/-! ### Helper lemmas about result formatting -/

theorem formatResults_length (r : StoreReply) :
    (formatResults r).length = r.documents.length := by
  simp [formatResults]

theorem formatResults_getElem? (r : StoreReply) (i : Nat)
    (h : i < r.documents.length) :
    (formatResults r)[i]? = some ⟨r.documents.getD i [],
      r.metadatas.getD i default, 1 - r.distances.getD i 0⟩ := by
  simp [formatResults, List.getElem?_map, List.getElem?_range h]

theorem formatResults_sorted (r : StoreReply)
    (hd : r.distances.length = r.documents.length)
    (hsort : List.Chain' (· ≤ ·) r.distances) :
    List.Chain' (fun a b : QueryResult => b.similarity_score ≤ a.similarity_score)
      (formatResults r) := by
  rw [formatResults, List.chain'_map]
  cases hn : r.documents.length with
  | zero => simp
  | succ n =>
    rw [List.chain'_range_succ]
    intro m hm
    simp only
    have hget : ∀ k, ∀ hk : k < r.distances.length,
        r.distances.getD k 0 = r.distances.get ⟨k, hk⟩ := by
      intro k hk
      simp [List.getD_eq_getElem?_getD, List.getElem?_eq_getElem hk]
    have h1 : r.distances.get ⟨m, by omega⟩ ≤ r.distances.get ⟨m + 1, by omega⟩ := by
      have := List.chain'_iff_get.mp hsort m (by omega)
      exact this
    rw [hget m (by omega), hget (m + 1) (by omega)]
    linarith

theorem formatResults_score_mem (r : StoreReply)
    (hd : r.distances.length = r.documents.length)
    (hrange : ∀ x ∈ r.distances, 0 ≤ x ∧ x ≤ 2) :
    ∀ q ∈ formatResults r, -1 ≤ q.similarity_score ∧ q.similarity_score ≤ 1 := by
  intro q hq
  rw [formatResults] at hq
  obtain ⟨i, hi, hqi⟩ := List.mem_map.mp hq
  have hin : i < r.documents.length := List.mem_range.mp hi
  have hmem : r.distances.getD i 0 ∈ r.distances := by
    have hig : i < r.distances.length := by omega
    rw [List.getD_eq_getElem?_getD, List.getElem?_eq_getElem hig]
    exact List.getElem_mem _
  obtain ⟨hx0, hx2⟩ := hrange _ hmem
  rw [← hqi]
  simp only
  constructor <;> linarith

-- sanity checks (spec §8 scenario and basic cases)
example : chunk_text [] 1000 200 1 = some [] := by decide
example : chunk_text "hello".toList 1000 200 1 = some ["hello".toList] := by decide
example : chunk_text "  hi  ".toList 1000 200 1 = some ["hi".toList] := by decide
example :
    chunk_text "Sentence one. Sentence two. Sentence three.".toList 20 5 10 =
      some ["Sentence one.".toList, "one. Sentence two.".toList,
        "two. Sentence three.".toList, "hree.".toList] := by
  decide

/-! ### Claims -/

/-- Claim C1.  The claim reads the break point as an absolute position in
`t` (the later of the last `'.'` and the last `'\n'` inside the window,
compared against the absolute midpoint `start + chunk_size/2`).  The source
instead takes `chunk.rfind(...)`, a window-relative index, compares it with
the absolute midpoint, and slices `text[start:break_point+1]` with the
relative index.  Witness: `t` with a period at absolute position 16,
`chunk_size = 10`, `overlap = 2`.  In the iteration starting at cursor 8
the break point (absolute 16, relative 8) lies after the midpoint 13, so
the claim requires the window to shrink to `(8, 17)`; the source emits the
full window `(8, 18)` because it compares the relative index 8 against 13.
The third window and the emitted chunks follow the unshrunk cursor. -/
theorem chunkText_relative_break_divergence :
    chunkWindows "aaaaaaaaaaaaaaaa.aaaaaa".toList 10 2 10 =
        some [(0, 10), (8, 18), (16, 26)] ∧
    8 + max (rfind (pySlice "aaaaaaaaaaaaaaaa.aaaaaa".toList 8 (8 + 10)) '.')
        (rfind (pySlice "aaaaaaaaaaaaaaaa.aaaaaa".toList 8 (8 + 10)) '\n') = 16 ∧
    ((16 : Int) > 8 + Int.fdiv 10 2) ∧
    ¬ (rfind (pySlice "aaaaaaaaaaaaaaaa.aaaaaa".toList 8 (8 + 10)) '.' >
        8 + Int.fdiv 10 2) ∧
    chunk_text "aaaaaaaaaaaaaaaa.aaaaaa".toList 10 2 10 =
      some ["aaaaaaaaaa".toList, "aaaaaaaa.a".toList, ".aaaaaa".toList] := by
  refine ⟨by decide, by decide, by decide, by decide, by decide⟩

set_option maxRecDepth 40000 in
/-- Claim C2, counterexample.  `t` of 801 characters is non-empty and
shorter than the default `chunk_size = 1000`, yet `chunk_text` returns two
chunks: after the first full-text window the cursor moves to
`1000 - 200 = 800 < 801`, so a second window `t[800:1800]` is emitted. -/
theorem chunkText_short_text_two_chunks :
    chunk_text_total (List.replicate 801 'a') 1000 200 =
        [List.replicate 801 'a', ['a']] ∧
    (List.replicate 801 'a').length < 1000 ∧
    pyStrip (List.replicate 801 'a') = List.replicate 801 'a' ∧
    [List.replicate 801 'a', ['a']] ≠ [pyStrip (List.replicate 801 'a')] := by
  refine ⟨by decide, by decide, by decide, by decide⟩

/-- Claim C2, amended: for every text `t` whose stripped form is non-empty
and whose length is at most `chunk_size - overlap` (with `0 ≤ overlap`),
`chunk_text` returns exactly one chunk, equal to `t` stripped, for any
positive fuel. -/
theorem chunkText_single_chunk (t : Str) (cs ov : Int) (fuel : Nat)
    (h0 : 0 ≤ ov) (h1 : (t.length : Int) ≤ cs - ov) (h2 : pyStrip t ≠ []) :
    chunk_text t cs ov (fuel + 1) = some [pyStrip t] := by
  have hpos : 0 < t.length := by
    rcases t with - | ⟨a, m⟩
    · exact absurd pyStrip_empty h2
    · simp
  have hws := chunkWindows_single t cs ov fuel h0 h1 hpos
  have hcs : (t.length : Int) ≤ cs := by omega
  rw [chunk_text, hws]
  rcases hps : pyStrip t with - | ⟨a, m⟩
  · exact absurd hps h2
  · simp [pySlice_full t cs hcs, hps]

/-- Witness for the amended claim C2 at a concrete input. -/
theorem chunkText_single_chunk_witness :
    (0 : Int) ≤ 200 ∧ (("hi".toList : Str).length : Int) ≤ 1000 - 200 ∧
    pyStrip "hi".toList ≠ [] ∧
    chunk_text "hi".toList 1000 200 1 = some [pyStrip "hi".toList] :=
  ⟨by decide, by decide, by decide,
    chunkText_single_chunk "hi".toList 1000 200 0 (by decide) (by decide) (by decide)⟩

/-- Claim C3, counterexample: with `chunk_size = 10` and
`overlap = 7 < chunk_size`, on a text with periods placed so the shrink
branch fires every iteration, the cursor cycles `0 → 2 → 2 → ⋯` and the
loop never exits: `chunk_text` yields `none` for every fuel. -/
theorem chunkText_nonterminating_case :
    ¬ chunkTerminates "aaaaaaaa.a.aa".toList 10 7 := by
  have hcyc : ∀ (fuel : Nat) (acc : List (Int × Int)),
      chunkWindowsLoop "aaaaaaaa.a.aa".toList 10 7 fuel 2 acc = none := by
    intro fuel
    induction fuel with
    | zero => intro acc; rfl
    | succ n ih =>
      intro acc
      have hstep : chunkWindowsLoop "aaaaaaaa.a.aa".toList 10 7 (n + 1) 2 acc =
          chunkWindowsLoop "aaaaaaaa.a.aa".toList 10 7 n 2 (acc ++ [(2, 9)]) := rfl
      rw [hstep]
      exact ih _
  rintro ⟨fuel, res, h⟩
  rw [chunk_text] at h
  cases hw : chunkWindows "aaaaaaaa.a.aa".toList 10 7 fuel with
  | none => rw [hw] at h; exact Option.noConfusion h
  | some ws =>
    cases fuel with
    | zero => exact Option.noConfusion hw
    | succ n =>
      have hstep0 : chunkWindows "aaaaaaaa.a.aa".toList 10 7 (n + 1) =
          chunkWindowsLoop "aaaaaaaa.a.aa".toList 10 7 n 2 [(0, 9)] := rfl
      rw [hstep0, hcyc n] at hw
      exact Option.noConfusion hw

/-- Claim C3, amended: the loop terminates whenever `0 ≤ overlap < chunk_size`
and additionally `overlap ≤ chunk_size/2 + 1` (so that the shrink branch,
whose end always exceeds `start + chunk_size/2 + 1`, still advances the
cursor); fuel `length t + 1` then suffices.  The default parameters
satisfy these bounds. -/
theorem chunkText_terminates_small_overlap (t : Str) (cs ov : Int)
    (h0 : 0 ≤ ov) (h1 : ov < cs) (h2 : ov ≤ Int.fdiv cs 2 + 1) :
    ∃ res, chunk_text t cs ov (t.length + 1) = some res := by
  obtain ⟨ws, hws⟩ := chunkWindowsLoop_term t cs ov h0 h1 h2 t.length 0 []
    (by omega)
  refine ⟨(ws.map fun p => pyStrip (pySlice t p.1 p.2)).filter fun c => !c.isEmpty, ?_⟩
  rw [chunk_text, chunkWindows, hws]
  rfl

/-- Witness for the amended claim C3 at a concrete input. -/
theorem chunkText_terminates_small_overlap_witness :
    (0 : Int) ≤ 1 ∧ (1 : Int) < 2 ∧ (1 : Int) ≤ Int.fdiv 2 2 + 1 ∧
    ∃ res, chunk_text "abc".toList 2 1 ("abc".toList.length + 1) = some res :=
  ⟨by decide, by decide, by decide,
    chunkText_terminates_small_overlap "abc".toList 2 1 (by decide) (by decide) (by decide)⟩

/-- Claim C4.  For the default parameters, every run of the chunker loop
produces windows whose consecutive cursors satisfy
`next start = previous end - 200 ≤ previous end`, so the windows leave no
gap: every character position of `t` lies inside some iteration window.
The third conjunct ties the windows to the chunks `chunk_text` returns
(each window is sliced, trimmed, and dropped only when whitespace-only). -/
theorem chunkText_windows_cover (t : Str) (fuel : Nat) (ws : List (Int × Int))
    (h : chunkWindows t 1000 200 fuel = some ws) :
    List.Chain' (fun p q : Int × Int => q.1 ≤ p.2) ws ∧
    (∀ j : Int, 0 ≤ j → j < (t.length : Int) → ∃ p ∈ ws, p.1 ≤ j ∧ j < p.2) ∧
    chunk_text t 1000 200 fuel =
      some ((ws.map fun p => pyStrip (pySlice t p.1 p.2)).filter fun c => !c.isEmpty) := by
  refine ⟨?_, ?_, ?_⟩
  · have hch := chunkWindowsLoop_chain t 1000 200 fuel 0 [] ws h (by simp) (by simp)
    exact List.Chain'.imp (fun a b hab => by omega) hch
  · intro j hj hjl
    exact chunkWindowsLoop_cover t 1000 200 (by norm_num) fuel 0 [] ws h j hj hjl
  · rw [chunk_text, h]
    rfl

/-- Witness for claim C4 at a concrete input. -/
theorem chunkText_windows_cover_witness :
    List.Chain' (fun p q : Int × Int => q.1 ≤ p.2) [((0 : Int), (1000 : Int))] ∧
    (∀ j : Int, 0 ≤ j → j < (("ab".toList : Str).length : Int) →
      ∃ p ∈ [((0 : Int), (1000 : Int))], p.1 ≤ j ∧ j < p.2) ∧
    chunk_text "ab".toList 1000 200 1 =
      some (([((0 : Int), (1000 : Int))].map fun p =>
        pyStrip (pySlice "ab".toList p.1 p.2)).filter fun c => !c.isEmpty) :=
  chunkText_windows_cover "ab".toList 1 [((0 : Int), (1000 : Int))] (by decide)

/-- Witness for claim C5 at a concrete input. -/
theorem chunkId_injective_witness : "d".toList = "d".toList ∧ (3 : Nat) = 3 :=
  chunkId_injective "d".toList 3 "d".toList 3 rfl

/-- Claim C6.  In `add_document_to_store`, a failure of the embedder's
`encode` or of the store's `add` yields an error that appends the
underlying cause to the HTTP 500 detail, and leaves the registry exactly
as it was; the registry entry for `doc_id` is written only when both
external calls succeed (third conjunct). -/
theorem addDocument_failure_atomic
    (enc : List Str → Except Str (List (List ℚ)))
    (cAdd : AddArgs → Except Str Unit)
    (reg : Registry) (d f md : Str) :
    (∀ e, enc (chunk_text_total md 1000 200) = .error e →
      add_document_to_store enc cAdd reg d f md =
        (.error ⟨500, "Error adding document to store: ".toList ++ e⟩, reg)) ∧
    (∀ embs e, enc (chunk_text_total md 1000 200) = .ok embs →
      cAdd ⟨embs, chunk_text_total md 1000 200,
          mkMetadatas d f (chunk_text_total md 1000 200),
          (List.range (chunk_text_total md 1000 200).length).map fun i => chunkId d i⟩
        = .error e →
      add_document_to_store enc cAdd reg d f md =
        (.error ⟨500, "Error adding document to store: ".toList ++ e⟩, reg)) ∧
    (∀ out, add_document_to_store enc cAdd reg d f md = out →
      out.2 = reg ∨
      ∃ embs, enc (chunk_text_total md 1000 200) = .ok embs ∧
        cAdd ⟨embs, chunk_text_total md 1000 200,
            mkMetadatas d f (chunk_text_total md 1000 200),
            (List.range (chunk_text_total md 1000 200).length).map fun i => chunkId d i⟩
          = .ok () ∧
        out.1 = .ok () ∧
        out.2 = fun k => if k = d
          then some ⟨f, md, (chunk_text_total md 1000 200).length, d⟩
          else reg k) := by
  refine ⟨?_, ?_, ?_⟩
  · intro e he
    simp only [add_document_to_store, he]
  · intro embs e henc hadd
    simp only [add_document_to_store, henc, hadd]
  · intro out hout
    simp only [add_document_to_store] at hout
    cases henc : enc (chunk_text_total md 1000 200) with
    | error e =>
      simp only [henc] at hout
      left
      rw [← hout]
    | ok embs =>
      simp only [henc] at hout
      cases hadd : cAdd ⟨embs, chunk_text_total md 1000 200,
          mkMetadatas d f (chunk_text_total md 1000 200),
          (List.range (chunk_text_total md 1000 200).length).map fun i => chunkId d i⟩ with
      | error e =>
        simp only [hadd] at hout
        left
        rw [← hout]
      | ok u =>
        cases u
        simp only [hadd] at hout
        right
        exact ⟨embs, rfl, hadd, by rw [← hout], by rw [← hout]⟩

/-- Witness for claim C6 at a concrete input: a failing embedder leaves the
(empty) registry untouched and surfaces the cause. -/
theorem addDocument_failure_atomic_witness :
    add_document_to_store (fun _ => .error "boom".toList) (fun _ => .ok ())
        (fun _ => none) "d".toList "f".toList "m".toList =
      (.error ⟨500, "Error adding document to store: ".toList ++ "boom".toList⟩,
        (fun _ => none : Registry)) :=
  (addDocument_failure_atomic (fun _ => .error "boom".toList) (fun _ => .ok ())
    (fun _ => none) "d".toList "f".toList "m".toList).1 "boom".toList rfl

/-- Claim C7.  When the embedder succeeds and the store replies with lists
of equal length whose distances are ascending and lie in `[0, 2]`,
`query_documents` succeeds, keeps the store's order (the `i`-th result
carries the `i`-th document, `i`-th metadata, and score `1 - distance_i`),
the scores are non-increasing down the list, and each lies in `[-1, 1]`. -/
theorem queryDocuments_ranking
    (enc : List Str → Except Str (List (List ℚ)))
    (collQ : List (List ℚ) → Nat → Except Str StoreReply)
    (q : Str) (n : Nat) (qe : List (List ℚ)) (r : StoreReply)
    (henc : enc [q] = .ok qe) (hq : collQ qe n = .ok r)
    (hm : r.metadatas.length = r.documents.length)
    (hd : r.distances.length = r.documents.length)
    (hsort : List.Chain' (· ≤ ·) r.distances)
    (hrange : ∀ x ∈ r.distances, 0 ≤ x ∧ x ≤ 2) :
    ∃ resp, query_documents enc collQ q n = .ok resp ∧
      resp.results.length = r.documents.length ∧
      (∀ i, i < r.documents.length →
        resp.results[i]? = some ⟨r.documents.getD i [],
          r.metadatas.getD i default, 1 - r.distances.getD i 0⟩) ∧
      List.Chain' (fun a b : QueryResult =>
        b.similarity_score ≤ a.similarity_score) resp.results ∧
      (∀ x ∈ resp.results, -1 ≤ x.similarity_score ∧ x.similarity_score ≤ 1) := by
  refine ⟨⟨q, formatResults r, (formatResults r).length⟩, ?_, ?_, ?_, ?_, ?_⟩
  · simp only [query_documents, henc, hq]
    rw [if_pos ⟨by omega, by omega⟩]
  · exact formatResults_length r
  · intro i hi
    exact formatResults_getElem? r i hi
  · exact formatResults_sorted r hd hsort
  · exact formatResults_score_mem r hd hrange

/-- Witness for claim C7 at a concrete input. -/
theorem queryDocuments_ranking_witness :
    ∃ resp, query_documents (fun _ => .ok [[(1 : ℚ)]])
        (fun _ _ => .ok ⟨["c".toList], [⟨"d".toList, "f".toList, 0, "c".toList⟩],
          [(0 : ℚ)]⟩) "q".toList 5 = .ok resp ∧
      resp.results.length = (["c".toList] : List Str).length ∧
      (∀ i, i < (["c".toList] : List Str).length →
        resp.results[i]? = some ⟨(["c".toList] : List Str).getD i [],
          ([⟨"d".toList, "f".toList, 0, "c".toList⟩] : List Metadata).getD i default,
          1 - ([(0 : ℚ)] : List ℚ).getD i 0⟩) ∧
      List.Chain' (fun a b : QueryResult =>
        b.similarity_score ≤ a.similarity_score) resp.results ∧
      (∀ x ∈ resp.results, -1 ≤ x.similarity_score ∧ x.similarity_score ≤ 1) :=
  queryDocuments_ranking (fun _ => .ok [[(1 : ℚ)]])
    (fun _ _ => .ok ⟨["c".toList], [⟨"d".toList, "f".toList, 0, "c".toList⟩], [(0 : ℚ)]⟩)
    "q".toList 5 [[(1 : ℚ)]]
    ⟨["c".toList], [⟨"d".toList, "f".toList, 0, "c".toList⟩], [(0 : ℚ)]⟩
    rfl rfl rfl rfl (by simp) (by
      intro x hx
      simp at hx
      simp [hx])

/-- Claim C8.  When the embedder succeeds and the store replies with `m ≤ n`
results (lists of equal length `m`, as the store contract guarantees when
only `m` chunks are held), `query_documents` succeeds and returns exactly
`m` results with `total_results = m`; in particular an empty store yields
an empty result list and `total_results = 0`, not an error. -/
theorem queryDocuments_small_store
    (enc : List Str → Except Str (List (List ℚ)))
    (collQ : List (List ℚ) → Nat → Except Str StoreReply)
    (q : Str) (n m : Nat) (qe : List (List ℚ)) (r : StoreReply)
    (henc : enc [q] = .ok qe) (hq : collQ qe n = .ok r)
    (hdoc : r.documents.length = m) (hmet : r.metadatas.length = m)
    (hdist : r.distances.length = m) (hmn : m ≤ n) :
    ∃ resp, query_documents enc collQ q n = .ok resp ∧
      resp.results.length = m ∧ resp.total_results = m := by
  refine ⟨⟨q, formatResults r, (formatResults r).length⟩, ?_, ?_, ?_⟩
  · simp only [query_documents, henc, hq]
    rw [if_pos ⟨by omega, by omega⟩]
  · rw [formatResults_length, hdoc]
  · simp only
    rw [formatResults_length, hdoc]

/-- Witness for claim C8: a query against an empty store returns zero
results, not an error. -/
theorem queryDocuments_small_store_witness :
    ∃ resp, query_documents (fun _ => .ok [[(1 : ℚ)]])
        (fun _ _ => .ok ⟨[], [], []⟩) "anything".toList 5 = .ok resp ∧
      resp.results.length = 0 ∧ resp.total_results = 0 :=
  queryDocuments_small_store (fun _ => .ok [[(1 : ℚ)]]) (fun _ _ => .ok ⟨[], [], []⟩)
    "anything".toList 5 0 [[(1 : ℚ)]] ⟨[], [], []⟩ rfl rfl rfl rfl rfl (by omega)

/-- Claim C9.  The `i`-th metadata bundle built during ingestion pairs the
`i`-th chunk with the owning document identifier, the filename, the 0-based
index `i`, and a preview equal to the chunk itself when it has at most 200
characters and to its first 200 characters followed by `"..."` otherwise. -/
theorem metadata_preview_pairing (d f : Str) (chunks : List Str) (i : Nat)
    (h : i < chunks.length) :
    (mkMetadatas d f chunks)[i]? =
      some ⟨d, f, i, preview (chunks.getD i [])⟩ ∧
    (∀ c : Str, c.length ≤ 200 → preview c = c) ∧
    (∀ c : Str, c.length > 200 → preview c = c.take 200 ++ "...".toList) := by
  refine ⟨?_, ?_, ?_⟩
  · rw [mkMetadatas, List.getElem?_map, List.getElem?_enum,
      List.getElem?_eq_getElem h]
    simp [List.getD_eq_getElem?_getD, List.getElem?_eq_getElem h]
  · intro c hc
    rw [preview, if_neg (by omega)]
  · intro c hc
    rw [preview, if_pos hc]

/-- Witness for claim C9 at a concrete input. -/
theorem metadata_preview_pairing_witness :
    (mkMetadatas "d".toList "f".toList ["c".toList])[0]? =
      some ⟨"d".toList, "f".toList, 0, preview ((["c".toList] : List Str).getD 0 [])⟩ ∧
    (∀ c : Str, c.length ≤ 200 → preview c = c) ∧
    (∀ c : Str, c.length > 200 → preview c = c.take 200 ++ "...".toList) :=
  metadata_preview_pairing "d".toList "f".toList ["c".toList] 0 (by decide)

/-- Claim C10.  Every chunk returned by `chunk_text` (for a non-negative
chunk size) is non-empty, starts and ends with a non-whitespace character,
is a contiguous substring of the input, and is at most `chunk_size` long:
the shrink branch only ever shortens the candidate window. -/
theorem chunkText_chunk_invariants (t : Str) (cs ov : Int) (fuel : Nat)
    (res : List Str) (hcs : 0 ≤ cs)
    (h : chunk_text t cs ov fuel = some res) :
    ∀ c ∈ res, c ≠ [] ∧
      (∀ a m, c = a :: m → pyIsSpace a = false) ∧
      (∀ a, c.getLast? = some a → pyIsSpace a = false) ∧
      (∃ u v, u ++ c ++ v = t) ∧
      (c.length : Int) ≤ cs := by
  intro c hc
  rw [chunk_text] at h
  obtain ⟨ws, hws, hres⟩ := Option.map_eq_some'.mp h
  subst hres
  obtain ⟨hmem, hpred⟩ := List.mem_filter.mp hc
  have hne : c ≠ [] := by
    intro hnil
    rw [hnil] at hpred
    simp at hpred
  obtain ⟨p, hp, hpc⟩ := List.mem_map.mp hmem
  have hwin := chunkWindowsLoop_mem t cs ov fuel 0 [] ws hws p hp
  have heq : p.2 = chunkEnd t cs p.1 := by
    rcases hwin with h' | h'
    · simp at h'
    · exact h'
  refine ⟨hne, ?_, ?_, ?_, ?_⟩
  · intro a m hcm
    rw [← hpc] at hcm
    exact pyStrip_head_not_space _ a m hcm
  · intro a ha
    rw [← hpc] at ha
    exact pyStrip_last_not_space _ a ha
  · obtain ⟨u₁, v₁, h₁⟩ := pySlice_decomp t p.1 p.2
    obtain ⟨u₂, v₂, h₂⟩ := pyStrip_decomp (pySlice t p.1 p.2)
    rw [hpc] at h₂
    exact ⟨u₁ ++ u₂, v₂ ++ v₁, by rw [← h₁, ← h₂]; simp [List.append_assoc]⟩
  · have h1 : c.length ≤ (pySlice t p.1 p.2).length := by
      rw [← hpc]
      exact pyStrip_length_le _
    have h2 : (pySlice t p.1 p.2).length ≤ cs.toNat := by
      rw [heq]
      exact chunk_window_length_le t cs p.1 hcs
    omega

/-- Witness for claim C10 at a concrete input: the single chunk produced
from `" hi. "` is `"hi."`, non-empty, trimmed, a substring, and short. -/
theorem chunkText_chunk_invariants_witness :
    "hi.".toList ≠ ([] : Str) ∧
    (∀ a m, ("hi.".toList : Str) = a :: m → pyIsSpace a = false) ∧
    (∀ a, ("hi.".toList : Str).getLast? = some a → pyIsSpace a = false) ∧
    (∃ u v, u ++ "hi.".toList ++ v = " hi. ".toList) ∧
    (("hi.".toList : Str).length : Int) ≤ 1000 :=
  chunkText_chunk_invariants " hi. ".toList 1000 200 1 ["hi.".toList]
    (by decide) (by decide) "hi.".toList (by simp)
